import Mathlib

/-!
Verification model of the `es` entity/component store
(files `es/storage.hpp` 2013 and 2014 revisions, `es/storage.cpp`,
`es/component.hpp`, `es/traits.hpp`).

The store packs each entity's component values into one contiguous buffer,
keeps a 64-bit presence mask and a dirty flag/mask per entity, and caches
byte offsets for the low-numbered components in a table indexed by the
low-order bits of the presence mask.

Modelling conventions:
* machine integers are `Nat`; `std::bitset<64>` values are `Nat` masks with
  `Nat.testBit`; `uint8_t` truncation is an explicit `% 256`;
* the per-entity byte buffer `std::vector<char>` is a `List Cell`, where a
  flat component's bytes are `Cell.byte` values and a boxed holder object
  occupying `size` bytes is `Cell.box v` followed by `size - 1``Cell.pad`
  cells (`v` is the held value, type-erased to a byte list);
* `std::unordered_map<uint32_t, elem>` is an association list in iteration
  order; C++ exceptions become `Except`/`Option` results, and operations
  whose exception can leave the object mutated return the state at the
  throw point;
* the x86 little-endian layout of the 8-byte mask header written by
  `reinterpret_cast<uint64_t*>` is modelled explicitly.
-/

namespace ES

/-- One slot of an entity's packed byte buffer: either a raw byte of a flat
component, or the first byte of a boxed holder carrying the held value `v`,
or one of the remaining holder bytes (vtable/heap-pointer innards that the
store never reinterprets for well-formed entities). -/
inductive Cell where
  | byte (b : ℕ)
  | box (v : List ℕ)
  | pad
  deriving DecidableEq

/-- Error kinds for the C++ exceptions and out-of-bounds accesses that the
source can raise. -/
inductive Err where
  | unknownEntity
  | componentMissing
  | bitsetRange
  | cacheOutOfBounds
  deriving DecidableEq

/-- Per-entity record, `storage::elem` (2014 revision): presence mask,
dirty mask, packed data buffer.  The 2013 revision differs only in `dirty`
being a single `bool`; the 2014 bitset constructor `dirty(true)` produces
the mask 1 (bit 0 only). -/
structure Elem where
  components : ℕ
  dirty : ℕ
  data : List Cell
  deriving DecidableEq

/-- A freshly constructed record, `elem()`: empty mask, empty buffer, and
`dirty(true)`, which for the 2014 `std::bitset<64>` member means the value
`std::bitset<64>(1)`, i.e. only bit 0 set. -/
def freshElem : Elem := { components := 0, dirty := 1, data := [] }

/-- The offset cache covers the first `cache_size` components
(`static const uint32_t cache_size = 12`). -/
def cache_size : ℕ := 12

/-- Low-order bits of the presence mask used to index the offset cache,
`cache_mask = (1 << cache_size) - 1`. -/
def cache_mask : ℕ := 2 ^ cache_size - 1

/-- Registration-time state of the storage: the registered component sizes
in id order (`components_`, each entry the byte size a value occupies in
the packed buffer), the offset-cache table (`component_offsets_`), and the
bitmask marking which component ids are boxed (`flat_mask_`; the source
sets its bit for the NON-flat components). -/
structure RegState where
  sizes : List ℕ
  offsets : List ℕ
  flatMask : ℕ
  deriving DecidableEq

/-- State after `storage::storage()`: `component_offsets_.push_back(0)`. -/
def initReg : RegState := { sizes := [], offsets := [0], flatMask := 0 }

/-- The post-branch part of `storage::register_component` (2013 revision):
append the descriptor, and while `components_.size() < cache_size` double
the offset table, writing `component_offsets_[j] = component_offsets_[j-i]
+ size` for the newly reachable mask prefixes. -/
def register_core (st : RegState) (size : ℕ) (flat : Bool) : RegState :=
  let sizes := st.sizes ++ [size]
  let flatMask := if flat then st.flatMask else st.flatMask ||| 2 ^ st.sizes.length
  let offsets :=
    if sizes.length < cache_size then st.offsets ++ st.offsets.map (· + size)
    else st.offsets
  { sizes := sizes, offsets := offsets, flatMask := flatMask }

/-- `storage::register_component` (2013 revision).  For a flat type the
size is `sizeof(type)`; for a boxed type the branch first executes
`flat_mask_.set(components_.size())` — which for `std::bitset<64>` throws
`out_of_range` when 64 ids are already taken — and the size is
`sizeof(holder<type>)`.  There is no capacity check of its own.  The
returned id is `components_.size() - 1` truncated to `component_id`
(`uint8_t`). -/
def register_component (st : RegState) (size : ℕ) (flat : Bool) :
    Except Err (RegState × ℕ) :=
  if flat = false ∧ 64 ≤ st.sizes.length then .error .bitsetRange
  else
    let st' := register_core st size flat
    .ok (st', (st'.sizes.length - 1) % 256)

/-- Register `n` flat components of byte size `size` each (the flat branch
never throws, so the plain fold is exact). -/
def register_flat_many (st : RegState) (n : ℕ) (size : ℕ) : RegState :=
  match n with
  | 0 => st
  | k + 1 => register_flat_many (register_core st size true) k size

/-- `storage::offset` (es/storage.cpp): look up
`component_offsets_[((1 << c) - 1) & mask & cache_mask]`, then add the
sizes of the present components with id in `[cache_size, c)`.  The table
access is modelled with `List.get?`, so an index beyond the table — which
in C++ is an out-of-bounds read — yields `none`. -/
def offset (st : RegState) (mask : ℕ) (c : ℕ) : Option ℕ :=
  match st.offsets.get? ((2 ^ c - 1) &&& mask &&& cache_mask) with
  | none => none
  | some base =>
      some ((List.range' cache_size (c - cache_size)).foldl
        (fun acc i => if mask.testBit i then acc + st.sizes.getD i 0 else acc) base)

/-- Offset by a pure linear scan: the sum of the sizes of all present
components with a lower id (the spec's reference algorithm for C1). -/
def offset_linear (sizes : List ℕ) (mask : ℕ) (c : ℕ) : ℕ :=
  (List.range c).foldl
    (fun acc i => if mask.testBit i then acc + sizes.getD i 0 else acc) 0

/-- The cells the placement-new of `storage::set` writes at the component's
offset: a flat value's raw bytes, or a freshly constructed holder embedding
the moved-in value. -/
def valueCells (st : RegState) (c : ℕ) (v : List ℕ) : List Cell :=
  if st.flatMask.testBit c = false then v.map Cell.byte
  else Cell.box v :: List.replicate (st.sizes.getD c 0 - 1) Cell.pad

/-- `storage::set` (iterator overload, 2014 revision; the buffer mechanics
are identical in the 2013 one).  Compute the offset first; if the component
is absent, grow the buffer — `resize` when the buffer is shorter than the
offset, otherwise `insert` of `size` zero bytes at the offset; construct
the value in place (destroying the old boxed holder first when present);
finally set the presence bit and the component's dirty bit.  An
out-of-bounds offset-cache lookup (undefined behaviour in C++) yields
`none`. -/
def set (st : RegState) (e : Elem) (c : ℕ) (v : List ℕ) : Option Elem :=
  match offset st e.components c with
  | none => none
  | some off =>
      let size := st.sizes.getD c 0
      let data1 :=
        if e.components.testBit c = false then
          if e.data.length < off then
            e.data ++ List.replicate (off + size - e.data.length) (Cell.byte 0)
          else
            e.data.take off ++ List.replicate size (Cell.byte 0) ++ e.data.drop off
        else e.data
      some { components := e.components ||| 2 ^ c
             dirty := e.dirty ||| 2 ^ c
             data := data1.take off ++ valueCells st c v ++ data1.drop (off + size) }

/-- `storage::remove_component_from_entity` (es/storage.cpp): no-op when
the presence bit is clear; otherwise destroy the boxed holder, erase the
component's byte range (shifting the following bytes left), reset the
presence bit, and mark dirty.  The mask/buffer updates follow
es/storage.cpp; the 2013 file sets the whole-record `bool` dirty flag, and
the per-component revision's implementation file is absent from the
sources.  Modelled from the spec: the missing per-component dirty update
"sets the dirty bit (the component no longer being present is itself a
reportable change)", i.e. the removed component's bit. -/
def remove_component_from_entity (st : RegState) (e : Elem) (c : ℕ) :
    Option Elem :=
  if e.components.testBit c = false then some e
  else
    match offset st e.components c with
    | none => none
    | some off =>
        let size := st.sizes.getD c 0
        some { components := e.components ^^^ 2 ^ c
               dirty := e.dirty ||| 2 ^ c
               data := e.data.take off ++ e.data.drop (off + size) }

/-- `std::bitset<64>::test`, which throws `out_of_range` for positions
at or beyond 64. -/
def bitset_test (mask : ℕ) (pos : ℕ) : Except Err Bool :=
  if pos < 64 then .ok (mask.testBit pos) else .error .bitsetRange

/-- `storage::entity_has_component`:
`return c < components_.size() && en->second.components.test(c);` — the
short-circuiting guard keeps `test` from ever seeing an unregistered id
(`n` is the number of registered components). -/
def entity_has_component (n : ℕ) (e : Elem) (c : ℕ) : Except Err Bool :=
  if c < n then bitset_test e.components c else .ok false

/-- `storage::check_dirty` for the per-component (bitset) dirty mask; the
revision's implementation file is absent from the sources.  Modelled from
the spec: is_dirty(entity) is true if any dirty bit is set. -/
def check_dirty (e : Elem) : Bool := e.dirty != 0

/-- `storage::check_dirty_and_clear`: return the prior dirty state, then
reset it (es/storage.cpp assigns `dirty = false`, clearing the whole
mask).  Result: the prior state paired with the updated record. -/
def check_dirty_and_clear (e : Elem) : Bool × Elem :=
  (check_dirty e, { e with dirty := 0 })

/-- `storage::for_each` (one requested component, 2014 revision): visit
every entity whose presence mask is a superset of the requested bit; the
callback — abstracted to a function of the entity id and its record —
returns a bitmask that is ANDed with the requested mask and ORed into the
entity's dirty mask.  Also returns the ids visited, in order. -/
def for_each1 (c : ℕ) (f : ℕ → Elem → ℕ) :
    List (ℕ × Elem) → List (ℕ × Elem) × List ℕ
  | [] => ([], [])
  | p :: rest =>
      let mask := 2 ^ c
      let r := for_each1 c f rest
      if p.2.components &&& mask = mask then
        ((p.1, { p.2 with dirty := p.2.dirty ||| (f p.1 p.2 &&& mask) }) :: r.1,
          p.1 :: r.2)
      else (p :: r.1, r.2)

/-- `storage::for_each` (two requested components, 2014 revision): the
requested mask is the bitwise OR of the two ids' bits; an entity is visited
iff its presence mask is a superset of it. -/
def for_each2 (c1 c2 : ℕ) (f : ℕ → Elem → ℕ) :
    List (ℕ × Elem) → List (ℕ × Elem) × List ℕ
  | [] => ([], [])
  | p :: rest =>
      let mask := 2 ^ c1 ||| 2 ^ c2
      let r := for_each2 c1 c2 f rest
      if p.2.components &&& mask = mask then
        ((p.1, { p.2 with dirty := p.2.dirty ||| (f p.1 p.2 &&& mask) }) :: r.1,
          p.1 :: r.2)
      else (p :: r.1, r.2)

/-- Lifecycle-hook invocations: `on_new_entity` and `on_deleted_entity`
calls, each recording the entity id and the record the hook observes
through its iterator argument. -/
inductive Event where
  | created (id : ℕ) (e : Elem)
  | deleted (id : ℕ) (e : Elem)
  deriving DecidableEq

/-- The storage's entity side: the id allocator `next_id_`, the entity
map `entities_` as an association list in iteration order, and the log of
lifecycle-hook invocations. -/
structure Stor where
  nextId : ℕ
  ents : List (ℕ × Elem)
  events : List Event
  deriving DecidableEq

/-- A storage with no entities and a fresh allocator. -/
def emptyStor : Stor := { nextId := 0, ents := [], events := [] }

/-- Lookup in the entity map, `entities_.find`. -/
def findEnt : List (ℕ × Elem) → ℕ → Option Elem
  | [], _ => none
  | p :: rest, id => if p.1 = id then some p.2 else findEnt rest id

/-- Erase one record from the entity map, `entities_.erase(iterator)`. -/
def eraseEnt : List (ℕ × Elem) → ℕ → List (ℕ × Elem)
  | [], _ => []
  | p :: rest, id => if p.1 = id then rest else p :: eraseEnt rest id

/-- Replace one record in the entity map (mutation through an iterator). -/
def updateEnt : List (ℕ × Elem) → ℕ → Elem → List (ℕ × Elem)
  | [], _, _ => []
  | p :: rest, id, e => if p.1 = id then (id, e) :: rest else p :: updateEnt rest id e

/-- `storage::new_entity`: `entities_.emplace(next_id_, elem())`, then the
`on_new_entity` hook fires with the emplaced iterator (the event records
the record the hook observes), then `++next_id_`; returns the id used. -/
def new_entity (s : Stor) : Stor × ℕ :=
  let id := s.nextId
  let ents' :=
    match findEnt s.ents id with
    | some _ => s.ents
    | none => s.ents ++ [(id, freshElem)]
  let r := (findEnt ents' id).getD freshElem
  ({ nextId := id + 1, ents := ents', events := s.events ++ [.created id r] }, id)

/-- `storage::make`: advance the allocator past the requested id, then
emplace; the hook fires only when the emplace actually inserted
(`result.second`). -/
def make (s : Stor) (id : ℕ) : Stor × ℕ :=
  let nid := if s.nextId ≤ id then id + 1 else s.nextId
  match findEnt s.ents id with
  | some _ => ({ nextId := nid, ents := s.ents, events := s.events }, id)
  | none =>
      ({ nextId := nid, ents := s.ents ++ [(id, freshElem)],
         events := s.events ++ [.created id freshElem] }, id)

/-- The loop of `storage::new_entities`:
`for (; count > 0; --count) entities_[next_id_++];` — `operator[]`
default-constructs a record for each fresh id; no lifecycle hook is
invoked anywhere in this function. -/
def new_entities_loop : ℕ → Stor → Stor
  | 0, s => s
  | count + 1, s =>
      new_entities_loop count
        { nextId := s.nextId + 1, ents := s.ents ++ [(s.nextId, freshElem)],
          events := s.events }

/-- `storage::new_entities`: run the loop and return the created id range
`[first, next_id_)`. -/
def new_entities (s : Stor) (count : ℕ) : Stor × (ℕ × ℕ) :=
  let s' := new_entities_loop count s
  (s', (s.nextId, s'.nextId))

/-- `storage::clone_entity`: emplace a copy of the source record at
`next_id_` (the deep copy replaces each boxed holder with a clone of the
held value, which leaves the value-level cell list unchanged), fire
`on_new_entity` with the cloned iterator, `++next_id_`. -/
def clone_entity (s : Stor) (src : Elem) : Stor × ℕ :=
  let id := s.nextId
  let ents' :=
    match findEnt s.ents id with
    | some _ => s.ents
    | none => s.ents ++ [(id, src)]
  let r := (findEnt ents' id).getD src
  ({ nextId := id + 1, ents := ents', events := s.events ++ [.created id r] }, id)

/-- `storage::delete_entity(entity)`: `find` throws `unknown entity` when
the id is absent — making the `return false` branch after it unreachable;
when present, the iterator overload fires `on_deleted_entity` with the
still-live record, runs the boxed destructors, erases the record, and the
raw-id overload returns true. -/
def delete_entity (s : Stor) (id : ℕ) : Except Err Bool × Stor :=
  match findEnt s.ents id with
  | none => (.error .unknownEntity, s)
  | some e =>
      (.ok true,
        { nextId := s.nextId, ents := eraseEnt s.ents id,
          events := s.events ++ [.deleted id e] })

/-- Raw bytes a cell contributes when a buffer range is copied verbatim
(well-formed flushes only ever cover flat `byte` cells; holder innards
reinterpreted as bytes are opaque and modelled as 0). -/
def cellByte : Cell → ℕ
  | .byte b => b
  | _ => 0

/-- The held value of the boxed holder whose first byte sits at index `i`
of the buffer. -/
def boxAt (data : List Cell) (i : ℕ) : List ℕ :=
  match data.get? i with
  | some (Cell.box v) => v
  | _ => []

/-- Map `g` over the half-open index range `[a, b)` of a list (the
`first`/`last` iterator pairs of the source). -/
def rangeMap (g : α → β) (l : List α) (a b : ℕ) : List β :=
  ((l.drop a).take (b - a)).map g

/-- Bytes of the buffer range `[a, b)`, reinterpreted as raw bytes. -/
def byteRange (data : List Cell) (a b : ℕ) : List ℕ :=
  rangeMap cellByte data a b

/-- Range `[a, b)` of a byte stream turned back into buffer cells. -/
def cellRange (buf : List ℕ) (a b : ℕ) : List Cell :=
  rangeMap Cell.byte buf a b

/-- Little-endian byte image of a machine integer, as written by the
`reinterpret_cast<uint64_t*>` store of the 8-byte mask header (x86). -/
def leBytes : ℕ → ℕ → List ℕ
  | 0, _ => []
  | k + 1, m => m % 256 :: leBytes k (m / 256)

/-- Value of a little-endian byte sequence, as read back by the
`reinterpret_cast<const uint64_t*>` load. -/
def leValue : List ℕ → ℕ
  | [] => 0
  | b :: bs => b + 256 * leValue bs

/-- `storage::set(entity, ...)` overload: `find` throws on unknown ids
before anything is touched; otherwise the iterator overload mutates the
record in place.  The offset is computed before any mutation, so a failing
cache lookup also leaves the store unchanged. -/
def set_by_id (st : RegState) (s : Stor) (id c : ℕ) (v : List ℕ) :
    Except Err Unit × Stor :=
  match findEnt s.ents id with
  | none => (.error .unknownEntity, s)
  | some e =>
      match set st e c v with
      | none => (.error .cacheOutOfBounds, s)
      | some e' => (.ok (), { s with ents := updateEnt s.ents id e' })

/-- `storage::get(entity, c)`: `find` throws on unknown ids; then the
iterator overload throws when the presence bit is clear; otherwise it
returns a reference to the value at the component's offset.  Const — it
never mutates the store. -/
def get_by_id (st : RegState) (s : Stor) (id c : ℕ) : Except Err (List ℕ) :=
  match findEnt s.ents id with
  | none => .error .unknownEntity
  | some e =>
      if e.components.testBit c = false then .error .componentMissing
      else
        match offset st e.components c with
        | none => .error .cacheOutOfBounds
        | some off =>
            if st.flatMask.testBit c = false then
              .ok (byteRange e.data off (off + st.sizes.getD c 0))
            else .ok (boxAt e.data off)

/-- Descriptor of one registered component as used by serialization: byte
size in the packed buffer, flatness, and the caller-supplied placeholder
hooks — `serialize` appends an encoding of the held value to the output,
`deserialize` parses a value from the stream and reports how many bytes it
consumed (`none` when the hook throws). -/
structure Comp where
  size : ℕ
  flat : Bool
  ser : List ℕ → List ℕ
  des : List ℕ → Option (List ℕ × ℕ)

/-- The loop of `storage::serialize` over component ids: flat components
only advance the `last` end of the pending verbatim range; a boxed
component flushes the pending range, appends its serialize hook's output,
and restarts the range after the holder; the loop breaks as soon as `last`
reaches the end of the buffer, and the pending range is flushed at the
end. -/
def serialize_loop (data : List Cell) (mask : ℕ) :
    List Comp → ℕ → ℕ → ℕ → List ℕ → List ℕ
  | [], _, first, _, out => out ++ byteRange data first data.length
  | c :: rest, i, first, last, out =>
      if mask.testBit i = false then
        serialize_loop data mask rest (i + 1) first last out
      else if c.flat then
        let lastN := last + c.size
        if data.length ≤ lastN then out ++ byteRange data first data.length
        else serialize_loop data mask rest (i + 1) first lastN out
      else
        let outN := out ++ byteRange data first last ++ c.ser (boxAt data last)
        let lastN := last + c.size
        if data.length ≤ lastN then outN ++ byteRange data lastN data.length
        else serialize_loop data mask rest (i + 1) lastN lastN outN

/-- `storage::serialize`: an 8-byte little-endian presence-mask header
followed by the entity's component data in ascending id order; flat runs
are copied verbatim, boxed holders are written through their serialize
hook. -/
def serialize (comps : List Comp) (e : Elem) : List ℕ :=
  leBytes 8 e.components ++ serialize_loop e.data e.components comps 0 0 0 []

/-- Result of `storage::deserialize`: `ok` with the record's final state,
or `err` when a deserialize hook throws — carrying the state the record
was left in at the throw point, since the source mutates the record in
place before and during parsing. -/
inductive DRes where
  | ok (e : Elem)
  | err (e : Elem)
  deriving DecidableEq

/-- The loop of `storage::deserialize` over component ids: flat components
advance the `last` end of the pending verbatim stream range; a boxed
component flushes the pending range into the rebuilt buffer, clones a
fresh holder, runs its deserialize hook on the remaining stream (an
exception there leaves the record as mutated so far), moves the holder to
the end of the buffer, and restarts the range; the loop breaks once `last`
reaches the end of the stream, and the pending range is flushed at the
end. -/
def deserialize_loop (buf : List ℕ) (mask dirt : ℕ) :
    List Comp → ℕ → ℕ → ℕ → List Cell → DRes
  | [], _, first, _, acc =>
      .ok { components := mask, dirty := dirt,
            data := acc ++ cellRange buf first buf.length }
  | c :: rest, i, first, last, acc =>
      if mask.testBit i = false then
        deserialize_loop buf mask dirt rest (i + 1) first last acc
      else if c.flat then
        let lastN := last + c.size
        if buf.length ≤ lastN then
          .ok { components := mask, dirty := dirt,
                data := acc ++ cellRange buf first buf.length }
        else deserialize_loop buf mask dirt rest (i + 1) first lastN acc
      else
        let accN := acc ++ cellRange buf first last
        match c.des (buf.drop last) with
        | none => .err { components := mask, dirty := dirt, data := accN }
        | some (v, used) =>
            let lastN := last + used
            let accN2 := accN ++ (Cell.box v :: List.replicate (c.size - 1) Cell.pad)
            if buf.length ≤ lastN then
              .ok { components := mask, dirty := dirt,
                    data := accN2 ++ cellRange buf lastN buf.length }
            else deserialize_loop buf mask dirt rest (i + 1) lastN lastN accN2

/-- `storage::deserialize`: destroy the record's boxed components, clear
its buffer, overwrite its presence mask with the 8-byte header, then
rebuild the buffer in ascending id order — copying flat bytes verbatim and
reconstructing boxed values through their deserialize hooks.  A stream
shorter than the header makes the initial `uint64_t` read out of bounds;
it is modelled as a failure after the clear. -/
def deserialize (comps : List Comp) (e : Elem) (buf : List ℕ) : DRes :=
  if buf.length < 8 then
    .err { components := e.components, dirty := e.dirty, data := [] }
  else deserialize_loop buf (leValue (buf.take 8)) e.dirty comps 0 8 8 []

/-- Packed-buffer cells one component contributes for a given optional
value: nothing when absent; a flat value's raw bytes; a boxed holder
embedding the value. -/
def encSeg (c : Comp) (o : Option (List ℕ)) : List Cell :=
  match o with
  | none => []
  | some v =>
      if c.flat then v.map Cell.byte
      else Cell.box v :: List.replicate (c.size - 1) Cell.pad

/-- The packed buffer of an entity holding the given per-component values
in ascending id order. -/
def encData : List Comp → List (Option (List ℕ)) → List Cell
  | c :: cs, o :: os => encSeg c o ++ encData cs os
  | _, _ => []

/-- Wire bytes one component contributes to the serialized stream: flat
values verbatim, boxed values through their serialize hook. -/
def wireSeg (c : Comp) (o : Option (List ℕ)) : List ℕ :=
  match o with
  | none => []
  | some v => if c.flat then v else c.ser v

/-- The serialized stream body for the given per-component values. -/
def wireData : List Comp → List (Option (List ℕ)) → List ℕ
  | c :: cs, o :: os => wireSeg c o ++ wireData cs os
  | _, _ => []

/-- Presence mask of a per-component value assignment (bit i set iff a
value is present at index i). -/
def maskOf : List (Option (List ℕ)) → ℕ
  | [] => 0
  | o :: os => (if o.isSome then 1 else 0) + 2 * maskOf os

/-- Sanity of one component's value: flat values occupy exactly the
component's byte size; boxed values have hooks that emit at least one byte
and parse back exactly what was emitted, consuming exactly the emitted
bytes. -/
def ValOK (c : Comp) (o : Option (List ℕ)) : Prop :=
  match o with
  | none => True
  | some v =>
      if c.flat then v.length = c.size
      else 1 ≤ (c.ser v).length ∧
        ∀ rest, c.des (c.ser v ++ rest) = some (v, (c.ser v).length)

/-- Pointwise sanity of a value assignment against the registered
components. -/
def ValsOK : List Comp → List (Option (List ℕ)) → Prop
  | c :: cs, o :: os => ValOK c o ∧ ValsOK cs os
  | _, _ => True

/-- The `es::serialize<std::string>` hook defined in the unit tests:
a 16-bit little-endian length prefix followed by the characters. -/
def ser16 (v : List ℕ) : List ℕ :=
  v.length % 256 :: v.length / 256 % 256 :: v

/-- The `es::deserialize<std::string>` hook defined in the unit tests:
read the 2-byte length, throw (`none`) when the length field or the
payload is missing, consume `2 + size` bytes. -/
def des16 (buf : List ℕ) : Option (List ℕ × ℕ) :=
  match buf with
  | b0 :: b1 :: rest =>
      let size := b0 % 256 + 256 * (b1 % 256)
      if rest.length < size then none else some (rest.take size, 2 + size)
  | _ => none

/-- A storage with 13 registered flat components of 4 bytes each; its
offset table has stopped doubling at 2048 entries (the doubling guard
`components_.size() < cache_size` stops one component too early for the
12-bit `cache_mask`). -/
def reg13 : RegState := register_flat_many initReg 13 4

/-- A storage with the full 64 registered flat components of 4 bytes
each. -/
def reg64 : RegState := register_flat_many initReg 64 4

/-- A storage with two registered flat components of sizes 2 and 3. -/
def reg2 : RegState := register_core (register_core initReg 2 true) 3 true

/-- A flat 4-byte component (the `int32` of the spec's scenario); its
hooks are never consulted. -/
def flatComp4 : Comp :=
  { size := 4, flat := true, ser := fun _ => [], des := fun _ => none }

/-- A boxed component with a 3-byte holder using the unit tests' string
hooks (the `string` of the spec's scenario). -/
def strComp3 : Comp := { size := 3, flat := false, ser := ser16, des := des16 }

/-- The two-component registry of the spec's end-to-end scenario:
a flat `int32` and a boxed string. -/
def comps2 : List Comp := [flatComp4, strComp3]

/-- Values for the scenario entity: health 20 as 4 little-endian bytes and
the name Timmy as character codes. -/
def vals2 : List (Option (List ℕ)) :=
  [some [20, 0, 0, 0], some [84, 105, 109, 109, 121]]

/-- An entity holding 4 bytes of the flat component 0 (used to exhibit
deserialize clobbering a record on malformed input). -/
def elemC8 : Elem :=
  { components := 1, dirty := 1,
    data := [Cell.byte 7, Cell.byte 7, Cell.byte 7, Cell.byte 7] }

/-- A malformed stream: a valid header whose mask announces the boxed
component 1, followed by a truncated length field the string hook throws
on. -/
def bufC8 : List ℕ := leBytes 8 2 ++ [5]

/-- A store holding exactly one entity, id 0, freshly created. -/
def storOne : Stor := { nextId := 1, ents := [(0, freshElem)], events := [] }

/-- A record holding only component 0 of the two-component storage: two
data bytes, clean. -/
def elemA : Elem :=
  { components := 1, dirty := 0, data := [Cell.byte 9, Cell.byte 9] }

/-- The record elemA after setting component 1 to the three bytes 1,2,3. -/
def elemB : Elem :=
  { components := 3, dirty := 2,
    data := [Cell.byte 9, Cell.byte 9, Cell.byte 1, Cell.byte 2, Cell.byte 3] }

instance {α β : Type} [DecidableEq α] [DecidableEq β] :
    DecidableEq (Except α β) := fun x y =>
  match x, y with
  | .error a, .error b =>
      if h : a = b then isTrue (by rw [h])
      else isFalse (by intro hc; cases hc; exact h rfl)
  | .ok a, .ok b =>
      if h : a = b then isTrue (by rw [h])
      else isFalse (by intro hc; cases hc; exact h rfl)
  | .error _, .ok _ => isFalse (by intro hc; exact Except.noConfusion hc)
  | .ok _, .error _ => isFalse (by intro hc; exact Except.noConfusion hc)

/-- Registering components appends their sizes in order. -/
theorem register_flat_many_sizes (n : ℕ) (st : RegState) (s : ℕ) :
    (register_flat_many st n s).sizes = st.sizes ++ List.replicate n s := by
  induction n generalizing st with
  | zero => simp [register_flat_many]
  | succ k ih =>
      rw [register_flat_many, ih,
        show (register_core st s true).sizes = st.sizes ++ [s] from rfl,
        List.append_assoc]
      rfl

/-- Registering in two batches is registering once. -/
theorem register_flat_many_add (a b : ℕ) (st : RegState) (s : ℕ) :
    register_flat_many st (a + b) s
      = register_flat_many (register_flat_many st a s) b s := by
  induction a generalizing st with
  | zero => rw [Nat.zero_add]; rfl
  | succ k ih =>
      rw [show k + 1 + b = (k + b) + 1 from by omega, register_flat_many,
        register_flat_many, ih]

/-- One registration step doubles the offset table exactly while the
component count stays below the cache window. -/
theorem register_core_offsets_length (st : RegState) (s : ℕ) (f : Bool) :
    (register_core st s f).offsets.length =
      if st.sizes.length + 1 < cache_size then 2 * st.offsets.length
      else st.offsets.length := by
  show (if (st.sizes ++ [s]).length < cache_size
      then st.offsets ++ st.offsets.map (· + s) else st.offsets).length = _
  simp only [List.length_append, List.length_singleton]
  split
  · simp only [List.length_append, List.length_map]
    omega
  · rfl

/-- While the doubling guard holds, `n` registrations multiply the offset
table's size by `2 ^ n` and add `n` components. -/
theorem register_flat_many_offsets_length (n : ℕ) (st : RegState) (s : ℕ)
    (h : st.sizes.length + n < cache_size) :
    (register_flat_many st n s).offsets.length = 2 ^ n * st.offsets.length ∧
    (register_flat_many st n s).sizes.length = st.sizes.length + n := by
  induction n generalizing st with
  | zero => simp [register_flat_many]
  | succ k ih =>
      rw [register_flat_many]
      have hlen1 : (register_core st s true).sizes.length
          = st.sizes.length + 1 := by
        simp [register_core]
      obtain ⟨h1, h2⟩ := ih (register_core st s true) (by omega)
      rw [h1, h2, hlen1, register_core_offsets_length,
        if_pos (by omega : st.sizes.length + 1 < cache_size)]
      constructor
      · rw [pow_succ]
        ring
      · omega

/-- The offset table of the 13-component storage has exactly 2048
entries: the doubling stops after the 11th component. -/
theorem reg13_offsets_length : reg13.offsets.length = 2048 := by
  have h11 := register_flat_many_offsets_length 11 initReg 4
    (by simp [initReg, cache_size])
  have hadd : reg13 = register_flat_many (register_flat_many initReg 11 4) 2 4 := by
    show register_flat_many initReg (11 + 2) 4 = _
    rw [register_flat_many_add]
  have h1off : (register_flat_many initReg 11 4).offsets.length = 2048 := by
    rw [h11.1]
    rfl
  have h1sz : (register_flat_many initReg 11 4).sizes.length = 11 := by
    rw [h11.2]
    rfl
  have h12sz : (register_core (register_flat_many initReg 11 4) 4 true).sizes.length
      = 12 := by
    simp [register_core, h1sz]
  have h12off : (register_core (register_flat_many initReg 11 4) 4 true).offsets.length
      = 2048 := by
    rw [register_core_offsets_length, if_neg (by rw [h1sz]; simp [cache_size]),
      h1off]
  rw [hadd]
  show (register_core (register_core (register_flat_many initReg 11 4) 4 true)
      4 true).offsets.length = 2048
  rw [register_core_offsets_length, if_neg (by rw [h12sz]; simp [cache_size]),
    h12off]

/-- Claim C1 (code bug).  The cached offset path diverges from the pure
linear scan.  With 13 registered components of 4 bytes each, the offset
table has 2048 entries — the doubling guard `components_.size() <
cache_size` stops the table one component short of the 12-bit `cache_mask`
window — so for the presence mask holding components 11 and 12 the cached
lookup for component 12 indexes entry 2048, one past the table (an
out-of-bounds read in C++), and the tail scan starting at `cache_size`
never adds component 11's size either; the linear scan yields 4.  Masks
without bit 11 (the last conjunct) still agree with the linear scan.  The
repository's own `many_test` registers 64 components and reads components
with id ≥ 12 on an entity holding all of them, which drives `offset`
through exactly this out-of-bounds lookup. -/
theorem C1_cache_path_diverges_from_linear_scan :
    reg13.offsets.length = 2048 ∧
    (2 ^ 12 - 1) &&& (2 ^ 11 + 2 ^ 12) &&& cache_mask = 2048 ∧
    offset reg13 (2 ^ 11 + 2 ^ 12) 12 = none ∧
    offset_linear reg13.sizes (2 ^ 11 + 2 ^ 12) 12 = 4 ∧
    offset reg13 (2 ^ 0 + 2 ^ 12) 12 =
      some (offset_linear reg13.sizes (2 ^ 0 + 2 ^ 12) 12) := by
  have hsz : reg13.sizes = List.replicate 13 4 := by
    show (register_flat_many initReg 13 4).sizes = _
    rw [register_flat_many_sizes]
    rfl
  refine ⟨reg13_offsets_length, by decide, ?_, ?_, ?_⟩
  · unfold offset
    rw [show (2 ^ 12 - 1) &&& (2 ^ 11 + 2 ^ 12) &&& cache_mask = 2048 from
      by decide]
    rw [List.get?_eq_none.mpr reg13_offsets_length.le]
  · rw [hsz]
    decide
  · rw [hsz]
    have hidx : (2 ^ 12 - 1) &&& (2 ^ 0 + 2 ^ 12) &&& cache_mask = 1 := by
      decide
    unfold offset
    rw [hidx,
      show reg13.offsets.get? 1 = some 4 from ?_]
    · decide
    · show (register_flat_many initReg 13 4).offsets.get? 1 = some 4
      rfl

set_option maxRecDepth 10000 in
/-- Claim C4 (counterexample).  With 64 component ids already taken, a
65th flat registration does not fail with any capacity error: it succeeds
and returns the id 64, outside `[0, 63]`. -/
theorem C4_sixtyfifth_registration_returns_64 :
    (register_component reg64 4 true).toOption.map Prod.snd = some 64 := by
  decide

/-- Claim C4 (amended).  Registration assigns ids sequentially: while
fewer than 256 ids are taken (the returned `component_id` is a `uint8_t`),
a successful registration returns exactly the number of previously
registered components and extends the descriptor list by one.  No
capacity check exists; only the boxed branch can fail, via the
`std::bitset<64>::set` range check. -/
theorem C4_register_assigns_sequential_ids (st : RegState) (size : ℕ)
    (flat : Bool) (st' : RegState) (id : ℕ)
    (hok : register_component st size flat = .ok (st', id))
    (hlt : st.sizes.length < 256) :
    id = st.sizes.length ∧ st'.sizes.length = st.sizes.length + 1 := by
  unfold register_component at hok
  split at hok
  · exact absurd hok (by simp)
  · simp only [Except.ok.injEq, Prod.mk.injEq] at hok
    obtain ⟨h1, h2⟩ := hok
    subst h1
    subst h2
    refine ⟨?_, ?_⟩
    · simp only [register_core, List.length_append, List.length_singleton]
      omega
    · simp [register_core]

/-- Witness for C4_register_assigns_sequential_ids at the empty storage. -/
theorem C4_register_assigns_sequential_ids_witness :
    register_component initReg 4 true = .ok (register_core initReg 4 true, 0) ∧
    initReg.sizes.length < 256 ∧
    (0 = initReg.sizes.length ∧
      (register_core initReg 4 true).sizes.length = initReg.sizes.length + 1) :=
  ⟨rfl, by decide,
    C4_register_assigns_sequential_ids initReg 4 true _ 0 rfl (by decide)⟩

/-- Claim C10 (confirmed).  With at most 64 registered components,
`entity_has_component` returns false — without failing — whenever the
queried id is at or beyond the number of registered components, and
returns exactly the entity's presence bit otherwise; the short-circuiting
guard keeps `bitset::test` from throwing. -/
theorem C10_has_component_guarded (n : ℕ) (e : Elem) (c : ℕ) (h64 : n ≤ 64) :
    (n ≤ c → entity_has_component n e c = .ok false) ∧
    (c < n → entity_has_component n e c = .ok (e.components.testBit c)) := by
  refine ⟨fun h => ?_, fun h => ?_⟩
  · unfold entity_has_component
    rw [if_neg (by omega)]
  · unfold entity_has_component bitset_test
    rw [if_pos h, if_pos (by omega)]

/-- Witness for C10_has_component_guarded with 2 registered components,
querying component 5 on a fresh entity. -/
theorem C10_has_component_guarded_witness :
    (2 : ℕ) ≤ 64 ∧
    ((2 ≤ 5 → entity_has_component 2 freshElem 5 = .ok false) ∧
      (5 < 2 → entity_has_component 2 freshElem 5 =
        .ok (freshElem.components.testBit 5))) :=
  ⟨by decide, C10_has_component_guarded 2 freshElem 5 (by decide)⟩

/-- Claim C6 (counterexample).  A freshly created record is not fully
dirty: the 2014 `elem()` constructor initialises the `std::bitset<64>`
dirty mask from `true`, i.e. with the value 1, so only bit 0 is set and
every other dirty bit is clear. -/
theorem C6_fresh_record_not_fully_dirty :
    ¬ (∀ i : ℕ, i < 64 → Nat.testBit freshElem.dirty i = true) := by
  decide

/-- Claim C6 (amended).  A freshly created record has dirty mask 1 (bit 0
only), which still reports dirty as a whole; `check_dirty_and_clear`
returns the pre-clear dirty state and leaves the record clean; a
subsequent `set` or `remove` marks exactly the touched component's dirty
bit in addition to the existing ones. -/
theorem C6_dirty_semantics (st : RegState) (e1 e2 e3 e4 : Elem) (c1 c2 : ℕ)
    (v : List ℕ)
    (hset : set st e1 c1 v = some e2)
    (hpres : e3.components.testBit c2 = true)
    (hrem : remove_component_from_entity st e3 c2 = some e4) :
    freshElem.dirty = 1 ∧ check_dirty freshElem = true ∧
    (∀ x : Elem, (check_dirty_and_clear x).1 = check_dirty x ∧
      (check_dirty_and_clear x).2.dirty = 0 ∧
      check_dirty (check_dirty_and_clear x).2 = false) ∧
    e2.dirty = e1.dirty ||| 2 ^ c1 ∧
    e4.dirty = e3.dirty ||| 2 ^ c2 := by
  refine ⟨rfl, rfl, fun x => ⟨rfl, rfl, rfl⟩, ?_, ?_⟩
  · unfold set at hset
    cases hoff : offset st e1.components c1 with
    | none => rw [hoff] at hset; exact absurd hset (by simp)
    | some off =>
        rw [hoff] at hset
        simp only [Option.some.injEq] at hset
        rw [← hset]
  · unfold remove_component_from_entity at hrem
    rw [hpres] at hrem
    simp only [Bool.true_eq_false, if_false] at hrem
    cases hoff : offset st e3.components c2 with
    | none => rw [hoff] at hrem; exact absurd hrem (by simp)
    | some off =>
        rw [hoff] at hrem
        simp only [Option.some.injEq] at hrem
        rw [← hrem]

/-- Witness for C6_dirty_semantics on the two-component storage: set the
size-3 component 1 on a record holding component 0, and remove
component 0 from such a record. -/
theorem C6_dirty_semantics_witness :
    (set reg2 { components := 1, dirty := 0, data := [Cell.byte 9, Cell.byte 9] }
        1 [1, 2, 3] =
      some { components := 3, dirty := 2,
             data := [Cell.byte 9, Cell.byte 9, Cell.byte 1, Cell.byte 2,
               Cell.byte 3] }) ∧
    (({ components := 1, dirty := 0,
        data := [Cell.byte 9, Cell.byte 9] } : Elem).components.testBit 0
      = true) ∧
    (remove_component_from_entity reg2
        { components := 1, dirty := 0, data := [Cell.byte 9, Cell.byte 9] } 0 =
      some { components := 0, dirty := 1, data := [] }) ∧
    (freshElem.dirty = 1 ∧ check_dirty freshElem = true ∧
      (∀ x : Elem, (check_dirty_and_clear x).1 = check_dirty x ∧
        (check_dirty_and_clear x).2.dirty = 0 ∧
        check_dirty (check_dirty_and_clear x).2 = false) ∧
      ({ components := 3, dirty := 2,
         data := [Cell.byte 9, Cell.byte 9, Cell.byte 1, Cell.byte 2,
           Cell.byte 3] } : Elem).dirty =
        ({ components := 1, dirty := 0,
           data := [Cell.byte 9, Cell.byte 9] } : Elem).dirty ||| 2 ^ 1 ∧
      ({ components := 0, dirty := 1, data := [] } : Elem).dirty =
        ({ components := 1, dirty := 0,
           data := [Cell.byte 9, Cell.byte 9] } : Elem).dirty ||| 2 ^ 0) :=
  ⟨by decide, by decide, by decide,
    C6_dirty_semantics reg2 _ _ _ _ 1 0 [1, 2, 3] (by decide) (by decide)
      (by decide)⟩

/-- Claim C7 (confirmed).  Both `for_each` arities visit exactly the
entities whose presence mask is a superset of the OR of the requested
component bits — each exactly once, in storage order, and no other entity
— and for each visited entity the callback's returned bitmask, restricted
to the requested components, is ORed into that entity's dirty mask; all
other records are untouched. -/
theorem C7_for_each_visits_and_marks_dirty (c1 c2 : ℕ) (f : ℕ → Elem → ℕ)
    (ents : List (ℕ × Elem)) :
    ((for_each2 c1 c2 f ents).2 =
      (ents.filter fun p =>
        decide (p.2.components &&& (2 ^ c1 ||| 2 ^ c2) =
          (2 ^ c1 ||| 2 ^ c2))).map Prod.fst) ∧
    ((for_each2 c1 c2 f ents).1 =
      ents.map fun p =>
        if p.2.components &&& (2 ^ c1 ||| 2 ^ c2) = (2 ^ c1 ||| 2 ^ c2) then
          (p.1, { p.2 with
            dirty := p.2.dirty ||| (f p.1 p.2 &&& (2 ^ c1 ||| 2 ^ c2)) })
        else p) ∧
    ((for_each1 c1 f ents).2 =
      (ents.filter fun p =>
        decide (p.2.components &&& 2 ^ c1 = 2 ^ c1)).map Prod.fst) ∧
    ((for_each1 c1 f ents).1 =
      ents.map fun p =>
        if p.2.components &&& 2 ^ c1 = 2 ^ c1 then
          (p.1, { p.2 with dirty := p.2.dirty ||| (f p.1 p.2 &&& 2 ^ c1) })
        else p) := by
  induction ents with
  | nil => exact ⟨rfl, rfl, rfl, rfl⟩
  | cons p rest ih =>
      obtain ⟨ih1, ih2, ih3, ih4⟩ := ih
      refine ⟨?_, ?_, ?_, ?_⟩
      · by_cases h : p.2.components &&& (2 ^ c1 ||| 2 ^ c2) = (2 ^ c1 ||| 2 ^ c2) <;>
          simp [for_each2, h, ih1]
      · by_cases h : p.2.components &&& (2 ^ c1 ||| 2 ^ c2) = (2 ^ c1 ||| 2 ^ c2) <;>
          simp [for_each2, h, ih2]
      · by_cases h : p.2.components &&& 2 ^ c1 = 2 ^ c1 <;>
          simp [for_each1, h, ih3]
      · by_cases h : p.2.components &&& 2 ^ c1 = 2 ^ c1 <;>
          simp [for_each1, h, ih4]

/-- Erasing a present id shrinks the entity map by exactly one record. -/
theorem eraseEnt_length (l : List (ℕ × Elem)) (id : ℕ) (e : Elem)
    (h : findEnt l id = some e) : (eraseEnt l id).length + 1 = l.length := by
  induction l with
  | nil => simp [findEnt] at h
  | cons p rest ih =>
      by_cases hp : p.1 = id
      · simp [eraseEnt, hp]
      · rw [findEnt, if_neg hp] at h
        rw [eraseEnt, if_neg hp]
        simp [ih h]

/-- Erasing one id leaves lookups of every other id unchanged. -/
theorem findEnt_eraseEnt_ne (l : List (ℕ × Elem)) (id j : ℕ) (h : j ≠ id) :
    findEnt (eraseEnt l id) j = findEnt l j := by
  induction l with
  | nil => rfl
  | cons p rest ih =>
      by_cases hp : p.1 = id
      · rw [eraseEnt, if_pos hp, findEnt, if_neg (by omega)]
      · rw [eraseEnt, if_neg hp, findEnt, findEnt]
        by_cases hj : p.1 = j
        · rw [if_pos hj, if_pos hj]
        · rw [if_neg hj, if_neg hj, ih]

/-- Claim C3 (amended).  Deleting an id that is absent fails with
UnknownEntity — `find` throws before the no-op branch is reachable — and
leaves the store unchanged; deleting a present entity returns true,
removes exactly one record, and leaves every other id's lookup
unchanged. -/
theorem C3_delete_entity_spec (s1 s2 : Stor) (idA idP : ℕ) (e : Elem)
    (hA : findEnt s1.ents idA = none)
    (hP : findEnt s2.ents idP = some e) :
    delete_entity s1 idA = (.error .unknownEntity, s1) ∧
    (delete_entity s2 idP).1 = .ok true ∧
    ((delete_entity s2 idP).2).ents.length + 1 = s2.ents.length ∧
    (∀ j, j ≠ idP →
      findEnt ((delete_entity s2 idP).2).ents j = findEnt s2.ents j) := by
  refine ⟨?_, ?_, ?_, ?_⟩
  · rw [delete_entity, hA]
  · rw [delete_entity, hP]
  · rw [delete_entity, hP]
    exact eraseEnt_length s2.ents idP e hP
  · intro j hj
    rw [delete_entity, hP]
    exact findEnt_eraseEnt_ne s2.ents idP j hj

/-- Witness for C3_delete_entity_spec: deleting id 5 from an empty store
versus deleting the only entity, id 0, from a one-entity store. -/
theorem C3_delete_entity_spec_witness :
    findEnt emptyStor.ents 5 = none ∧
    findEnt storOne.ents 0 = some freshElem ∧
    delete_entity emptyStor 5 = (.error .unknownEntity, emptyStor) ∧
    (delete_entity storOne 0).1 = .ok true ∧
    ((delete_entity storOne 0).2).ents.length + 1 = storOne.ents.length ∧
    findEnt ((delete_entity storOne 0).2).ents 7 = findEnt storOne.ents 7 :=
  ⟨by decide, by decide,
    (C3_delete_entity_spec emptyStor storOne 5 0 freshElem (by decide) (by decide)).1,
    (C3_delete_entity_spec emptyStor storOne 5 0 freshElem (by decide) (by decide)).2.1,
    (C3_delete_entity_spec emptyStor storOne 5 0 freshElem (by decide) (by decide)).2.2.1,
    (C3_delete_entity_spec emptyStor storOne 5 0 freshElem (by decide)
      (by decide)).2.2.2 7 (by decide)⟩

/-- Claim C3 (counterexample).  Deleting a raw id that is not present does
not return the no-op false: `find` throws `unknown entity`, so the call
fails instead. -/
theorem C3_delete_absent_throws :
    (delete_entity emptyStor 0).1 = .error .unknownEntity ∧
    (delete_entity emptyStor 0).1 ≠ .ok false := by
  decide

/-- Appending a record for a fresh id makes it findable. -/
theorem findEnt_append_self (l : List (ℕ × Elem)) (id : ℕ) (e : Elem)
    (h : findEnt l id = none) : findEnt (l ++ [(id, e)]) id = some e := by
  induction l with
  | nil => simp [findEnt]
  | cons p rest ih =>
      by_cases hp : p.1 = id
      · rw [findEnt, if_pos hp] at h
        exact absurd h (by simp)
      · rw [findEnt, if_neg hp] at h
        rw [List.cons_append, findEnt, if_neg hp]
        exact ih h

/-- The batch-create loop never touches the event log (no lifecycle hook
is invoked). -/
theorem new_entities_loop_events (count : ℕ) (s : Stor) :
    (new_entities_loop count s).events = s.events := by
  induction count generalizing s with
  | zero => rfl
  | succ k ih => rw [new_entities_loop, ih]

/-- Claim C9 (amended).  The creation hook fires exactly once,
synchronously, after the record is constructed, for `new_entity`, for
`make` when the id was actually inserted, and for `clone_entity`; `make`
on an existing id fires nothing; the deletion hook fires exactly once for
`delete_entity` with the record as it stood before erasure; but the batch
creator `new_entities` constructs records without invoking the creation
hook at all. -/
theorem C9_lifecycle_hooks (s1 s2 s3 s4 s5 : Stor) (id2 id3 id5 : ℕ)
    (src e3 e5 : Elem) (count : ℕ)
    (h1 : findEnt s1.ents s1.nextId = none)
    (h2 : findEnt s2.ents id2 = none)
    (h3 : findEnt s3.ents id3 = some e3)
    (h4 : findEnt s4.ents s4.nextId = none)
    (h5 : findEnt s5.ents id5 = some e5) :
    ((new_entity s1).1.events = s1.events ++ [Event.created s1.nextId freshElem] ∧
      findEnt (new_entity s1).1.ents s1.nextId = some freshElem) ∧
    (make s2 id2).1.events = s2.events ++ [Event.created id2 freshElem] ∧
    (make s3 id3).1.events = s3.events ∧
    ((clone_entity s4 src).1.events = s4.events ++ [Event.created s4.nextId src] ∧
      findEnt (clone_entity s4 src).1.ents s4.nextId = some src) ∧
    (new_entities_loop count s1).events = s1.events ∧
    (delete_entity s5 id5).2.events = s5.events ++ [Event.deleted id5 e5] := by
  have hfind1 : findEnt (s1.ents ++ [(s1.nextId, freshElem)]) s1.nextId
      = some freshElem := findEnt_append_self _ _ _ h1
  have hfind4 : findEnt (s4.ents ++ [(s4.nextId, src)]) s4.nextId
      = some src := findEnt_append_self _ _ _ h4
  refine ⟨⟨?_, ?_⟩, ?_, ?_, ⟨?_, ?_⟩, ?_, ?_⟩
  · rw [new_entity]
    simp only [h1, hfind1, Option.getD_some]
  · rw [new_entity]
    simp only [h1, hfind1, Option.getD_some]
  · rw [make, h2]
  · rw [make, h3]
  · rw [clone_entity]
    simp only [h4, hfind4, Option.getD_some]
  · rw [clone_entity]
    simp only [h4, hfind4, Option.getD_some]
  · exact new_entities_loop_events count s1
  · rw [delete_entity, h5]

/-- Witness for C9_lifecycle_hooks on small concrete stores. -/
theorem C9_lifecycle_hooks_witness :
    (findEnt emptyStor.ents emptyStor.nextId = none ∧
      findEnt storOne.ents 0 = some freshElem) ∧
    (new_entity emptyStor).1.events = [Event.created 0 freshElem] ∧
    (make emptyStor 3).1.events = [Event.created 3 freshElem] ∧
    (make storOne 0).1.events = [] ∧
    (clone_entity emptyStor freshElem).1.events = [Event.created 0 freshElem] ∧
    (new_entities_loop 2 emptyStor).events = [] ∧
    (delete_entity storOne 0).2.events = [Event.deleted 0 freshElem] :=
  ⟨⟨by decide, by decide⟩,
    (C9_lifecycle_hooks emptyStor emptyStor storOne emptyStor storOne 3 0 0
      freshElem freshElem freshElem 2 (by decide) (by decide) (by decide)
      (by decide) (by decide)).1.1,
    (C9_lifecycle_hooks emptyStor emptyStor storOne emptyStor storOne 3 0 0
      freshElem freshElem freshElem 2 (by decide) (by decide) (by decide)
      (by decide) (by decide)).2.1,
    (C9_lifecycle_hooks emptyStor emptyStor storOne emptyStor storOne 3 0 0
      freshElem freshElem freshElem 2 (by decide) (by decide) (by decide)
      (by decide) (by decide)).2.2.1,
    (C9_lifecycle_hooks emptyStor emptyStor storOne emptyStor storOne 3 0 0
      freshElem freshElem freshElem 2 (by decide) (by decide) (by decide)
      (by decide) (by decide)).2.2.2.1.1,
    (C9_lifecycle_hooks emptyStor emptyStor storOne emptyStor storOne 3 0 0
      freshElem freshElem freshElem 2 (by decide) (by decide) (by decide)
      (by decide) (by decide)).2.2.2.2.1,
    (C9_lifecycle_hooks emptyStor emptyStor storOne emptyStor storOne 3 0 0
      freshElem freshElem freshElem 2 (by decide) (by decide) (by decide)
      (by decide) (by decide)).2.2.2.2.2⟩

/-- Claim C9 (counterexample).  The batch creator makes an entity but
invokes no lifecycle hook: after `new_entities(1)` on an empty store one
record exists and the hook-invocation log is still empty. -/
theorem C9_batch_create_skips_hook :
    (new_entities emptyStor 1).1.ents.length = 1 ∧
    (new_entities emptyStor 1).1.events = [] := by
  decide

/-- Claim C8 (amended).  A failing set, get or delete leaves the store
byte-for-byte unchanged: the entity-id overloads validate through `find`
before touching anything, and `get` on a missing component throws before
reading.  (Deserialize is the exception — see the counterexample.) -/
theorem C8_failed_ops_leave_state (st : RegState) (s : Stor) (idA idP c : ℕ)
    (v : List ℕ) (e : Elem)
    (hA : findEnt s.ents idA = none)
    (hP : findEnt s.ents idP = some e)
    (hc : e.components.testBit c = false) :
    set_by_id st s idA c v = (.error .unknownEntity, s) ∧
    delete_entity s idA = (.error .unknownEntity, s) ∧
    get_by_id st s idA c = .error .unknownEntity ∧
    get_by_id st s idP c = .error .componentMissing := by
  refine ⟨?_, ?_, ?_, ?_⟩
  · rw [set_by_id, hA]
  · rw [delete_entity, hA]
  · rw [get_by_id, hA]
  · simp only [get_by_id, hP]
    rw [if_pos hc]

/-- Witness for C8_failed_ops_leave_state: a one-entity store, an unknown
id 5, and the known id 0 with component 0 absent. -/
theorem C8_failed_ops_leave_state_witness :
    findEnt storOne.ents 5 = none ∧
    findEnt storOne.ents 0 = some freshElem ∧
    freshElem.components.testBit 0 = false ∧
    set_by_id reg2 storOne 5 0 [1, 2] = (.error .unknownEntity, storOne) ∧
    delete_entity storOne 5 = (.error .unknownEntity, storOne) ∧
    get_by_id reg2 storOne 5 0 = .error .unknownEntity ∧
    get_by_id reg2 storOne 0 0 = .error .componentMissing :=
  ⟨by decide, by decide, by decide,
    (C8_failed_ops_leave_state reg2 storOne 5 0 0 [1, 2] freshElem (by decide)
      (by decide) (by decide)).1,
    (C8_failed_ops_leave_state reg2 storOne 5 0 0 [1, 2] freshElem (by decide)
      (by decide) (by decide)).2.1,
    (C8_failed_ops_leave_state reg2 storOne 5 0 0 [1, 2] freshElem (by decide)
      (by decide) (by decide)).2.2.1,
    (C8_failed_ops_leave_state reg2 storOne 5 0 0 [1, 2] freshElem (by decide)
      (by decide) (by decide)).2.2.2⟩

/-- Claim C8 (counterexample).  Deserialize is not atomic: on a malformed
stream (valid header announcing the boxed component 1, then a truncated
length field that makes the string hook throw) the failing call leaves the
record with its old buffer destroyed and cleared and its presence mask
already overwritten — not byte-for-byte unchanged, and mutated before the
failure. -/
theorem C8_deserialize_mutates_on_failure :
    deserialize comps2 elemC8 bufC8 =
      DRes.err { components := 2, dirty := 1, data := [] } ∧
    ({ components := 2, dirty := 1, data := [] } : Elem) ≠ elemC8 := by
  decide

/-- Taking exactly the length of the left part of an append yields it. -/
theorem take_append_of_length {α : Type} (l1 l2 : List α) (n : ℕ)
    (h : l1.length = n) : (l1 ++ l2).take n = l1 := by
  subst h
  exact List.take_left l1 l2

/-- Dropping exactly the length of the left part of an append yields the
right part. -/
theorem drop_append_of_length {α : Type} (l1 l2 : List α) (n : ℕ)
    (h : l1.length = n) : (l1 ++ l2).drop n = l2 := by
  subst h
  exact List.drop_left l1 l2

/-- Dropping the left part's length plus `m` drops `m` into the right
part. -/
theorem drop_append_add_of_length {α : Type} (l1 l2 : List α) (n m : ℕ)
    (h : l1.length = n) : (l1 ++ l2).drop (n + m) = l2.drop m := by
  subst h
  exact List.drop_append m

/-- Claim C5 (confirmed).  For a record and a registered component whose
offset-cache lookup succeeds: when the component is absent, `set` grows
the buffer by the component's size at the component's offset — an insert
that shifts all following components' bytes right — and sets the presence
bit; when the component is already present, the old boxed value is
destroyed in place and the new value is constructed at the same offset
with the buffer length unchanged (in-place replacement, never insertion);
in both cases the component's dirty bit is set afterwards. -/
theorem C5_set_inserts_or_replaces (st : RegState) (e e2 : Elem) (c off : ℕ)
    (v : List ℕ)
    (hoff : offset st e.components c = some off)
    (hs : set st e c v = some e2)
    (hlen : (valueCells st c v).length = st.sizes.getD c 0) :
    (e.components.testBit c = false → off ≤ e.data.length →
        e2.data = e.data.take off ++ valueCells st c v ++ e.data.drop off ∧
        e2.data.length = e.data.length + st.sizes.getD c 0) ∧
    (e.components.testBit c = true → off + st.sizes.getD c 0 ≤ e.data.length →
        e2.data = e.data.take off ++ valueCells st c v ++
          e.data.drop (off + st.sizes.getD c 0) ∧
        e2.data.length = e.data.length) ∧
    e2.components = e.components ||| 2 ^ c ∧
    e2.dirty = e.dirty ||| 2 ^ c ∧
    e2.components.testBit c = true := by
  refine ⟨fun h hle => ?_, fun h hle => ?_, ?_, ?_, ?_⟩
  · simp only [set, hoff, Option.some.injEq, h, eq_self_iff_true, if_true,
      if_neg (show ¬ e.data.length < off from by omega)] at hs
    rw [← hs]
    have hA : (e.data.take off).length = off := List.length_take_of_le hle
    have hdata :
        ((e.data.take off ++ List.replicate (st.sizes.getD c 0) (Cell.byte 0) ++
            e.data.drop off).take off ++ valueCells st c v ++
          (e.data.take off ++ List.replicate (st.sizes.getD c 0) (Cell.byte 0) ++
            e.data.drop off).drop (off + st.sizes.getD c 0))
          = e.data.take off ++ valueCells st c v ++ e.data.drop off := by
      rw [List.append_assoc (e.data.take off),
        take_append_of_length _ _ off hA,
        drop_append_add_of_length _ _ off (st.sizes.getD c 0) hA,
        drop_append_of_length _ _ (st.sizes.getD c 0)
          (List.length_replicate _ _)]
    refine ⟨hdata, ?_⟩
    rw [hdata]
    simp only [List.length_append, hA, hlen, List.length_drop]
    omega
  · simp only [set, hoff, Option.some.injEq, h, Bool.true_eq_false, if_false] at hs
    rw [← hs]
    refine ⟨rfl, ?_⟩
    simp only [List.length_append, List.length_take, hlen, List.length_drop]
    omega
  · simp only [set, hoff, Option.some.injEq] at hs
    rw [← hs]
  · simp only [set, hoff, Option.some.injEq] at hs
    rw [← hs]
  · simp only [set, hoff, Option.some.injEq] at hs
    rw [← hs]
    simp [Nat.testBit_lor, Nat.testBit_two_pow_self]

/-- Witness for C5_set_inserts_or_replaces: the two-component storage,
inserting the size-3 component 1 into a record that holds only the size-2
component 0. -/
theorem C5_set_inserts_or_replaces_witness :
    offset reg2 elemA.components 1 = some 2 ∧
    set reg2 elemA 1 [1, 2, 3] = some elemB ∧
    (valueCells reg2 1 [1, 2, 3]).length = reg2.sizes.getD 1 0 ∧
    (elemA.components.testBit 1 = false → 2 ≤ elemA.data.length →
      elemB.data = elemA.data.take 2 ++ valueCells reg2 1 [1, 2, 3] ++
        elemA.data.drop 2 ∧
      elemB.data.length = elemA.data.length + reg2.sizes.getD 1 0) ∧
    elemB.components = elemA.components ||| 2 ^ 1 ∧
    elemB.dirty = elemA.dirty ||| 2 ^ 1 :=
  ⟨by decide, by decide, by decide,
    (C5_set_inserts_or_replaces reg2 elemA elemB 1 2 [1, 2, 3] (by decide)
      (by decide) (by decide)).1,
    (C5_set_inserts_or_replaces reg2 elemA elemB 1 2 [1, 2, 3] (by decide)
      (by decide) (by decide)).2.2.1,
    (C5_set_inserts_or_replaces reg2 elemA elemB 1 2 [1, 2, 3] (by decide)
      (by decide) (by decide)).2.2.2.1⟩

/-- An empty index range maps to the empty list. -/
theorem rangeMap_refl {α β : Type} (g : α → β) (l : List α) (a : ℕ) :
    rangeMap g l a a = [] := by
  simp [rangeMap]

/-- A range starting past the end of the list is empty. -/
theorem rangeMap_of_drop_nil {α β : Type} (g : α → β) (l : List α) (a b : ℕ)
    (h : l.drop a = []) : rangeMap g l a b = [] := by
  simp [rangeMap, h]

/-- A range ending at or past the end of the list covers the whole tail. -/
theorem rangeMap_full {α β : Type} (g : α → β) (l : List α) (a b : ℕ)
    (h : l.length ≤ b) : rangeMap g l a b = (l.drop a).map g := by
  unfold rangeMap
  congr 1
  apply List.take_of_length_le
  simp only [List.length_drop]
  omega

/-- Extending a range by `k` appends the image of the next `k` elements. -/
theorem rangeMap_split {α β : Type} (g : α → β) (l : List α) (a b k : ℕ)
    (hab : a ≤ b) :
    rangeMap g l a (b + k) = rangeMap g l a b ++ ((l.drop b).take k).map g := by
  unfold rangeMap
  rw [← List.map_append]
  congr 1
  have h2 : (l.drop a).drop (b - a) = l.drop b := by
    rw [List.drop_drop]
    congr 1
    omega
  rw [show b + k - a = (b - a) + k from by omega, List.take_add, h2]

/-- Bit `k` of the presence mask of a value assignment is exactly whether
index `k` carries a value. -/
theorem maskOf_testBit (vals : List (Option (List ℕ))) (k : ℕ) :
    (maskOf vals).testBit k = (vals.getD k none).isSome := by
  induction vals generalizing k with
  | nil => simp [maskOf, List.getD]
  | cons o os ih =>
      cases k with
      | zero =>
          cases o <;>
            simp [maskOf, Nat.testBit_zero, Nat.add_mul_mod_self_left, List.getD]
      | succ k =>
          have hdiv : maskOf (o :: os) / 2 = maskOf os := by
            cases o <;> simp [maskOf] <;> omega
          rw [Nat.testBit_succ, hdiv, ih]
          rfl

/-- The presence mask is bounded by the width of the assignment. -/
theorem maskOf_lt (vals : List (Option (List ℕ))) :
    maskOf vals < 2 ^ vals.length := by
  induction vals with
  | nil => simp [maskOf]
  | cons o os ih =>
      cases o <;> simp [maskOf, List.length_cons, pow_succ] <;> omega

/-- The little-endian image always has the requested width. -/
theorem leBytes_length (k m : ℕ) : (leBytes k m).length = k := by
  induction k generalizing m with
  | zero => rfl
  | succ k ih => simp [leBytes, ih]

/-- Reading back the little-endian image of a value below `256 ^ k`
recovers the value. -/
theorem leValue_leBytes (k m : ℕ) (h : m < 256 ^ k) :
    leValue (leBytes k m) = m := by
  induction k generalizing m with
  | zero =>
      simp only [pow_zero, Nat.lt_one_iff] at h
      simp [leBytes, leValue, h]
  | succ k ih =>
      rw [leBytes, leValue, ih (m / 256) ?_]
      · omega
      · rw [pow_succ] at h
        exact Nat.div_lt_iff_lt_mul (by norm_num) |>.mpr (by omega)

/-- A boxed or flat present segment is never empty (component sizes are
at least 1, and boxed encodings are nonempty). -/
theorem encSeg_ne_nil (c : Comp) (v : List ℕ) (hok : ValOK c (some v))
    (hs : 1 ≤ c.size) : encSeg c (some v) ≠ [] := by
  unfold encSeg ValOK at *
  cases hcf : c.flat with
  | true =>
      simp only [hcf, if_true] at hok ⊢
      intro hc
      rw [List.map_eq_nil_iff] at hc
      subst hc
      simp at hok
      omega
  | false => simp [hcf]

/-- A present segment on the wire is never empty. -/
theorem wireSeg_ne_nil (c : Comp) (v : List ℕ) (hok : ValOK c (some v))
    (hs : 1 ≤ c.size) : wireSeg c (some v) ≠ [] := by
  unfold wireSeg ValOK at *
  cases hcf : c.flat with
  | true =>
      simp only [hcf, if_true] at hok ⊢
      intro hc
      subst hc
      simp at hok
      omega
  | false =>
      simp [hcf] at hok ⊢
      intro hc
      rw [hc] at hok
      simp at hok

/-- If the remaining wire bytes are empty, all remaining values are absent
and the remaining buffer cells are empty too. -/
theorem encData_of_wireData_nil (comps : List Comp)
    (vals : List (Option (List ℕ)))
    (hsz : ∀ c ∈ comps, 1 ≤ c.size) (hok : ValsOK comps vals)
    (h : wireData comps vals = []) : encData comps vals = [] := by
  induction comps generalizing vals with
  | nil => cases vals <;> rfl
  | cons c rest ih =>
      cases vals with
      | nil => rfl
      | cons o os =>
          rw [wireData, List.append_eq_nil] at h
          obtain ⟨h1, h2⟩ := h
          obtain ⟨hok0, hok'⟩ := hok
          cases o with
          | none =>
              rw [encData, ih os (fun x hx => hsz x (by simp [hx])) hok' h2]
              rfl
          | some v =>
              exact absurd h1 (wireSeg_ne_nil c v hok0 (hsz c (by simp)))

/-- If the remaining buffer cells are empty, all remaining values are
absent and the remaining wire bytes are empty too. -/
theorem wireData_of_encData_nil (comps : List Comp)
    (vals : List (Option (List ℕ)))
    (hsz : ∀ c ∈ comps, 1 ≤ c.size) (hok : ValsOK comps vals)
    (h : encData comps vals = []) : wireData comps vals = [] := by
  induction comps generalizing vals with
  | nil => cases vals <;> rfl
  | cons c rest ih =>
      cases vals with
      | nil => rfl
      | cons o os =>
          rw [encData, List.append_eq_nil] at h
          obtain ⟨h1, h2⟩ := h
          obtain ⟨hok0, hok'⟩ := hok
          cases o with
          | none =>
              rw [wireData, ih os (fun x hx => hsz x (by simp [hx])) hok' h2]
              rfl
          | some v =>
              exact absurd h1 (encSeg_ne_nil c v hok0 (hsz c (by simp)))

/-- The string hooks of the unit tests invert each other on any string
shorter than 65536 bytes, consuming exactly the emitted bytes. -/
theorem des16_ser16 (v : List ℕ) (hv : v.length < 65536) (rest : List ℕ) :
    des16 (ser16 v ++ rest) = some (v, (ser16 v).length) := by
  unfold ser16 des16
  simp only [List.cons_append]
  have hsize : v.length % 256 % 256 + 256 * (v.length / 256 % 256 % 256)
      = v.length := by omega
  rw [hsize]
  rw [if_neg (by simp)]
  rw [take_append_of_length v rest v.length rfl]
  simp only [List.length_cons]
  rw [show (2 : ℕ) + v.length = v.length + 1 + 1 from by omega]

/-- Extending a byte range over the raw bytes of a flat segment appends
exactly that segment's value. -/
theorem byteRange_extend_flat (data : List Cell) (first last : ℕ) (v : List ℕ)
    (E : List Cell) (n : ℕ) (hfl : first ≤ last)
    (hdrop : data.drop last = v.map Cell.byte ++ E) (hvlen : v.length = n) :
    byteRange data first (last + n) = byteRange data first last ++ v := by
  unfold byteRange
  rw [rangeMap_split cellByte data first last n hfl, hdrop,
    take_append_of_length _ _ n (by simp [hvlen]), List.map_map]
  congr 1
  have hid : cellByte ∘ Cell.byte = id := by
    funext b
    rfl
  rw [hid, List.map_id]

/-- Extending a cell range over a flat wire segment appends exactly that
segment's bytes as cells. -/
theorem cellRange_extend (buf : List ℕ) (first last : ℕ) (v W : List ℕ)
    (n : ℕ) (hfl : first ≤ last)
    (hdrop : buf.drop last = v ++ W) (hvlen : v.length = n) :
    cellRange buf first (last + n) = cellRange buf first last ++ v.map Cell.byte := by
  unfold cellRange
  rw [rangeMap_split Cell.byte buf first last n hfl, hdrop,
    take_append_of_length _ _ n hvlen]

/-- The serialize loop, on a buffer that is exactly the packed encoding of
the remaining values, emits the pending flush followed by the remaining
wire bytes. -/
theorem serialize_loop_eq (comps : List Comp) (vals : List (Option (List ℕ)))
    (data : List Cell) (mask : ℕ) (i first last : ℕ) (out : List ℕ)
    (hlen : vals.length = comps.length)
    (hbit : ∀ k, mask.testBit (i + k) = (vals.getD k none).isSome)
    (hdrop : data.drop last = encData comps vals)
    (hfl : first ≤ last)
    (hsz : ∀ c ∈ comps, 1 ≤ c.size)
    (hok : ValsOK comps vals) :
    serialize_loop data mask comps i first last out
      = out ++ byteRange data first last ++ wireData comps vals := by
  induction comps generalizing vals i first last out with
  | nil =>
      have hv : vals = [] := List.length_eq_zero.mp (by simpa using hlen)
      subst hv
      have hd : data.length ≤ last := by
        rw [show encData [] [] = [] from rfl] at hdrop
        exact List.drop_eq_nil_iff.mp hdrop
      simp only [serialize_loop,
        show wireData ([] : List Comp) [] = [] from rfl, List.append_nil,
        byteRange]
      rw [rangeMap_full cellByte data first data.length le_rfl,
        rangeMap_full cellByte data first last hd]
  | cons c rest ih =>
      cases vals with
      | nil => simp at hlen
      | cons o os =>
          have hlen' : os.length = rest.length := by simpa using hlen
          have hbit0 : mask.testBit i = o.isSome := by simpa using hbit 0
          have hbit' : ∀ k, mask.testBit (i + 1 + k) = (os.getD k none).isSome := by
            intro k
            have h := hbit (k + 1)
            rw [show i + (k + 1) = i + 1 + k from by omega] at h
            simpa [List.getD] using h
          obtain ⟨hok0, hok'⟩ := hok
          have hsz0 : 1 ≤ c.size := hsz c (by simp)
          have hsz' : ∀ x ∈ rest, 1 ≤ x.size := fun x hx => hsz x (by simp [hx])
          cases o with
          | none =>
              simp only [serialize_loop]
              rw [hbit0]
              rw [if_pos (by simp)]
              rw [ih os (i + 1) first last out hlen' hbit'
                (by rw [hdrop]; rfl) hfl hsz' hok']
              rw [show wireData (c :: rest) (none :: os) = wireData rest os
                from rfl]
          | some v =>
              simp only [serialize_loop]
              rw [hbit0]
              rw [if_neg (by simp)]
              cases hcf : c.flat with
              | true =>
                  rw [if_pos rfl]
                  have hvlen : v.length = c.size := by
                    unfold ValOK at hok0
                    simpa [hcf] using hok0
                  have hdropc : data.drop last
                      = v.map Cell.byte ++ encData rest os := by
                    rw [hdrop,
                      show encData (c :: rest) (some v :: os)
                        = encSeg c (some v) ++ encData rest os from rfl]
                    congr 1
                    simp [encSeg, hcf]
                  have hdlen : data.length - last
                      = c.size + (encData rest os).length := by
                    have h := congrArg List.length hdropc
                    simp only [List.length_drop, List.length_append,
                      List.length_map, hvlen] at h
                    exact h
                  have hlast : last < data.length := by omega
                  have hdropN : data.drop (last + c.size) = encData rest os := by
                    have h1 : data.drop (last + c.size)
                        = (data.drop last).drop c.size := by
                      rw [List.drop_drop]
                    rw [h1, hdropc,
                      drop_append_of_length _ _ c.size (by simp [hvlen])]
                  have hwire : wireData (c :: rest) (some v :: os)
                      = v ++ wireData rest os := by
                    rw [show wireData (c :: rest) (some v :: os)
                        = wireSeg c (some v) ++ wireData rest os from rfl]
                    congr 1
                    simp [wireSeg, hcf]
                  by_cases hbreak : data.length ≤ last + c.size
                  · rw [if_pos hbreak]
                    have hE : encData rest os = [] := by
                      have h0 : (encData rest os).length = 0 := by omega
                      exact List.length_eq_zero.mp h0
                    have hW : wireData rest os = [] :=
                      wireData_of_encData_nil rest os hsz' hok' hE
                    rw [hwire, hW, List.append_nil,
                      show data.length = last + c.size from by omega,
                      byteRange_extend_flat data first last v (encData rest os)
                        c.size hfl hdropc hvlen]
                    simp [List.append_assoc]
                  · rw [if_neg hbreak]
                    rw [ih os (i + 1) first (last + c.size) out hlen' hbit'
                      hdropN (by omega) hsz' hok']
                    rw [byteRange_extend_flat data first last v (encData rest os)
                      c.size hfl hdropc hvlen, hwire]
                    simp [List.append_assoc]
              | false =>
                  rw [if_neg (by simp)]
                  have hdropc : data.drop last
                      = (Cell.box v :: List.replicate (c.size - 1) Cell.pad)
                        ++ encData rest os := by
                    rw [hdrop,
                      show encData (c :: rest) (some v :: os)
                        = encSeg c (some v) ++ encData rest os from rfl]
                    congr 1
                    simp [encSeg, hcf]
                  have hbox : boxAt data last = v := by
                    have hget : data.get? last = some (Cell.box v) := by
                      have h0 := List.get?_drop data last 0
                      rw [Nat.add_zero] at h0
                      rw [← h0, hdropc]
                      rfl
                    unfold boxAt
                    rw [hget]
                  have hdlen : data.length - last
                      = c.size + (encData rest os).length := by
                    have h := congrArg List.length hdropc
                    simp only [List.length_drop, List.length_append,
                      List.length_cons, List.length_replicate] at h
                    omega
                  have hlast : last < data.length := by omega
                  have hdropN : data.drop (last + c.size) = encData rest os := by
                    have h1 : data.drop (last + c.size)
                        = (data.drop last).drop c.size := by
                      rw [List.drop_drop]
                    rw [h1, hdropc,
                      drop_append_of_length _ _ c.size (by simp; omega)]
                  have hwire : wireData (c :: rest) (some v :: os)
                      = c.ser v ++ wireData rest os := by
                    rw [show wireData (c :: rest) (some v :: os)
                        = wireSeg c (some v) ++ wireData rest os from rfl]
                    congr 1
                    simp [wireSeg, hcf]
                  rw [hbox]
                  by_cases hbreak : data.length ≤ last + c.size
                  · rw [if_pos hbreak]
                    have hE : encData rest os = [] := by
                      have h0 : (encData rest os).length = 0 := by omega
                      exact List.length_eq_zero.mp h0
                    have hW : wireData rest os = [] :=
                      wireData_of_encData_nil rest os hsz' hok' hE
                    have hdropN2 : data.drop (last + c.size) = [] := by
                      rw [hdropN, hE]
                    rw [show byteRange data (last + c.size) data.length = []
                        from rangeMap_of_drop_nil cellByte data _ _ hdropN2,
                      List.append_nil, hwire, hW, List.append_nil]
                  · rw [if_neg hbreak]
                    rw [ih os (i + 1) (last + c.size) (last + c.size)
                      (out ++ byteRange data first last ++ c.ser v) hlen' hbit'
                      hdropN le_rfl hsz' hok']
                    rw [show byteRange data (last + c.size) (last + c.size) = []
                        from rangeMap_refl cellByte data _, List.append_nil,
                      hwire]
                    simp [List.append_assoc]

/-- The deserialize loop, on a stream tail that is exactly the wire
encoding of the remaining values, rebuilds the pending flush followed by
the packed encoding of the remaining values. -/
theorem deserialize_loop_eq (comps : List Comp) (vals : List (Option (List ℕ)))
    (buf : List ℕ) (mask dirt : ℕ) (i first last : ℕ) (acc : List Cell)
    (hlen : vals.length = comps.length)
    (hbit : ∀ k, mask.testBit (i + k) = (vals.getD k none).isSome)
    (hdrop : buf.drop last = wireData comps vals)
    (hfl : first ≤ last)
    (hsz : ∀ c ∈ comps, 1 ≤ c.size)
    (hok : ValsOK comps vals) :
    deserialize_loop buf mask dirt comps i first last acc
      = DRes.ok { components := mask, dirty := dirt,
                  data := acc ++ cellRange buf first last ++ encData comps vals } := by
  induction comps generalizing vals i first last acc with
  | nil =>
      have hv : vals = [] := List.length_eq_zero.mp (by simpa using hlen)
      subst hv
      have hd : buf.length ≤ last := by
        rw [show wireData ([] : List Comp) [] = [] from rfl] at hdrop
        exact List.drop_eq_nil_iff.mp hdrop
      simp only [deserialize_loop,
        show encData ([] : List Comp) [] = [] from rfl, List.append_nil,
        cellRange]
      rw [rangeMap_full Cell.byte buf first buf.length le_rfl,
        rangeMap_full Cell.byte buf first last hd]
  | cons c rest ih =>
      cases vals with
      | nil => simp at hlen
      | cons o os =>
          have hlen' : os.length = rest.length := by simpa using hlen
          have hbit0 : mask.testBit i = o.isSome := by simpa using hbit 0
          have hbit' : ∀ k, mask.testBit (i + 1 + k) = (os.getD k none).isSome := by
            intro k
            have h := hbit (k + 1)
            rw [show i + (k + 1) = i + 1 + k from by omega] at h
            simpa [List.getD] using h
          obtain ⟨hok0, hok'⟩ := hok
          have hsz0 : 1 ≤ c.size := hsz c (by simp)
          have hsz' : ∀ x ∈ rest, 1 ≤ x.size := fun x hx => hsz x (by simp [hx])
          cases o with
          | none =>
              simp only [deserialize_loop]
              rw [hbit0]
              rw [if_pos (by simp)]
              rw [ih os (i + 1) first last acc hlen' hbit'
                (by rw [hdrop]; rfl) hfl hsz' hok']
              rw [show encData (c :: rest) (none :: os) = encData rest os
                from rfl]
          | some v =>
              simp only [deserialize_loop]
              rw [hbit0]
              rw [if_neg (by simp)]
              cases hcf : c.flat with
              | true =>
                  rw [if_pos rfl]
                  have hvlen : v.length = c.size := by
                    unfold ValOK at hok0
                    simpa [hcf] using hok0
                  have hdropc : buf.drop last = v ++ wireData rest os := by
                    rw [hdrop,
                      show wireData (c :: rest) (some v :: os)
                        = wireSeg c (some v) ++ wireData rest os from rfl]
                    congr 1
                    simp [wireSeg, hcf]
                  have hdlen : buf.length - last
                      = c.size + (wireData rest os).length := by
                    have h := congrArg List.length hdropc
                    simp only [List.length_drop, List.length_append, hvlen] at h
                    exact h
                  have hlast : last < buf.length := by omega
                  have hdropN : buf.drop (last + c.size) = wireData rest os := by
                    have h1 : buf.drop (last + c.size)
                        = (buf.drop last).drop c.size := by
                      rw [List.drop_drop]
                    rw [h1, hdropc, drop_append_of_length _ _ c.size hvlen]
                  have henc : encData (c :: rest) (some v :: os)
                      = v.map Cell.byte ++ encData rest os := by
                    rw [show encData (c :: rest) (some v :: os)
                        = encSeg c (some v) ++ encData rest os from rfl]
                    congr 1
                    simp [encSeg, hcf]
                  by_cases hbreak : buf.length ≤ last + c.size
                  · rw [if_pos hbreak]
                    have hW : wireData rest os = [] := by
                      have h0 : (wireData rest os).length = 0 := by omega
                      exact List.length_eq_zero.mp h0
                    have hE : encData rest os = [] :=
                      encData_of_wireData_nil rest os hsz' hok' hW
                    rw [henc, hE, List.append_nil,
                      show buf.length = last + c.size from by omega,
                      cellRange_extend buf first last v (wireData rest os)
                        c.size hfl hdropc hvlen]
                    simp [List.append_assoc]
                  · rw [if_neg hbreak]
                    rw [ih os (i + 1) first (last + c.size) acc hlen' hbit'
                      hdropN (by omega) hsz' hok']
                    rw [henc,
                      cellRange_extend buf first last v (wireData rest os)
                        c.size hfl hdropc hvlen]
                    simp [List.append_assoc]
              | false =>
                  rw [if_neg (by simp)]
                  have hser : 1 ≤ (c.ser v).length ∧
                      ∀ r, c.des (c.ser v ++ r) = some (v, (c.ser v).length) := by
                    unfold ValOK at hok0
                    simpa [hcf] using hok0
                  have hdropc : buf.drop last = c.ser v ++ wireData rest os := by
                    rw [hdrop,
                      show wireData (c :: rest) (some v :: os)
                        = wireSeg c (some v) ++ wireData rest os from rfl]
                    congr 1
                    simp [wireSeg, hcf]
                  have hdes : c.des (buf.drop last)
                      = some (v, (c.ser v).length) := by
                    rw [hdropc]
                    exact hser.2 (wireData rest os)
                  rw [hdes]
                  dsimp only
                  have hdropN : buf.drop (last + (c.ser v).length)
                      = wireData rest os := by
                    have h1 : buf.drop (last + (c.ser v).length)
                        = (buf.drop last).drop (c.ser v).length := by
                      rw [List.drop_drop]
                    rw [h1, hdropc, drop_append_of_length _ _ _ rfl]
                  have henc : encData (c :: rest) (some v :: os)
                      = (Cell.box v :: List.replicate (c.size - 1) Cell.pad)
                        ++ encData rest os := by
                    rw [show encData (c :: rest) (some v :: os)
                        = encSeg c (some v) ++ encData rest os from rfl]
                    congr 1
                    simp [encSeg, hcf]
                  by_cases hbreak : buf.length ≤ last + (c.ser v).length
                  · rw [if_pos hbreak]
                    have hW : wireData rest os = [] := by
                      rw [← hdropN]
                      exact List.drop_eq_nil_iff.mpr hbreak
                    have hE : encData rest os = [] :=
                      encData_of_wireData_nil rest os hsz' hok' hW
                    have hdropN2 : buf.drop (last + (c.ser v).length) = [] := by
                      rw [hdropN, hW]
                    rw [show cellRange buf (last + (c.ser v).length) buf.length
                        = [] from rangeMap_of_drop_nil Cell.byte buf _ _ hdropN2,
                      List.append_nil, henc, hE, List.append_nil]
                  · rw [if_neg hbreak]
                    rw [ih os (i + 1) (last + (c.ser v).length)
                      (last + (c.ser v).length)
                      (acc ++ cellRange buf first last ++
                        (Cell.box v :: List.replicate (c.size - 1) Cell.pad))
                      hlen' hbit' hdropN le_rfl hsz' hok']
                    rw [show cellRange buf (last + (c.ser v).length)
                        (last + (c.ser v).length) = []
                        from rangeMap_refl Cell.byte buf _, List.append_nil,
                      henc]
                    simp [List.append_assoc]

/-- Claim C2 (confirmed).  For any registered component list (at most 64
components, each of positive size) and any combination of present values —
flat values of exactly the component's size, boxed values whose
caller-supplied hooks emit at least one byte and parse back exactly what
they emit — serializing an entity holding those values and deserializing
the result into a fresh entity yields a record with an identical presence
mask and component values equal by value to the source's (the rebuilt
buffer is cell-for-cell the source buffer; only the dirty state comes from
the target record). -/
theorem C2_roundtrip (comps : List Comp) (vals : List (Option (List ℕ)))
    (d : ℕ) (f : Elem)
    (hlen : vals.length = comps.length)
    (h64 : comps.length ≤ 64)
    (hsz : ∀ c ∈ comps, 1 ≤ c.size)
    (hok : ValsOK comps vals) :
    deserialize comps f
        (serialize comps
          { components := maskOf vals, dirty := d, data := encData comps vals })
      = DRes.ok { components := maskOf vals, dirty := f.dirty,
                  data := encData comps vals } := by
  have hbit : ∀ k, (maskOf vals).testBit (0 + k) = (vals.getD k none).isSome := by
    intro k
    rw [Nat.zero_add]
    exact maskOf_testBit vals k
  have hser : serialize comps
      { components := maskOf vals, dirty := d, data := encData comps vals }
      = leBytes 8 (maskOf vals) ++ wireData comps vals := by
    show leBytes 8 (maskOf vals) ++
        serialize_loop (encData comps vals) (maskOf vals) comps 0 0 0 [] = _
    congr 1
    rw [serialize_loop_eq comps vals (encData comps vals) (maskOf vals) 0 0 0 []
      hlen hbit (by rw [List.drop_zero]) le_rfl hsz hok]
    rw [show byteRange (encData comps vals) 0 0 = []
      from rangeMap_refl cellByte _ 0]
    rfl
  rw [hser]
  unfold deserialize
  rw [if_neg (by simp only [List.length_append, leBytes_length]; omega)]
  rw [take_append_of_length _ _ 8 (leBytes_length 8 _)]
  have hM : maskOf vals < 256 ^ 8 := by
    have h1 := maskOf_lt vals
    have h2 : (2 : ℕ) ^ vals.length ≤ 2 ^ 64 :=
      Nat.pow_le_pow_right (by norm_num) (by omega)
    have h3 : (2 : ℕ) ^ 64 = 256 ^ 8 := by norm_num
    omega
  rw [leValue_leBytes 8 (maskOf vals) hM]
  rw [deserialize_loop_eq comps vals
    (leBytes 8 (maskOf vals) ++ wireData comps vals) (maskOf vals) f.dirty
    0 8 8 [] hlen hbit
    (drop_append_of_length _ _ 8 (leBytes_length 8 _)) le_rfl hsz hok]
  rw [show cellRange (leBytes 8 (maskOf vals) ++ wireData comps vals) 8 8 = []
    from rangeMap_refl Cell.byte _ 8]
  rw [List.append_nil, List.nil_append]

/-- The scenario values satisfy the value sanity conditions: the flat
int32 occupies exactly 4 bytes, and the string hooks invert each other. -/
theorem valsOK_comps2 : ValsOK comps2 vals2 := by
  refine ⟨?_, ?_, trivial⟩
  · simp [ValOK, flatComp4]
  · show 1 ≤ (ser16 [84, 105, 109, 109, 121]).length ∧ ∀ rest,
      des16 (ser16 [84, 105, 109, 109, 121] ++ rest)
        = some ([84, 105, 109, 109, 121], (ser16 [84, 105, 109, 109, 121]).length)
    refine ⟨by simp [ser16], fun rest => ?_⟩
    exact des16_ser16 [84, 105, 109, 109, 121] (by simp) rest

/-- Witness for C2_roundtrip on the spec's end-to-end scenario: a flat
int32 holding 20 and a boxed string holding the name Timmy. -/
theorem C2_roundtrip_witness :
    (vals2.length = comps2.length ∧ comps2.length ≤ 64 ∧
      (∀ c ∈ comps2, 1 ≤ c.size) ∧ ValsOK comps2 vals2) ∧
    deserialize comps2 freshElem
        (serialize comps2
          { components := maskOf vals2, dirty := 5, data := encData comps2 vals2 })
      = DRes.ok { components := maskOf vals2, dirty := freshElem.dirty,
                  data := encData comps2 vals2 } :=
  ⟨⟨rfl, by decide, by decide, valsOK_comps2⟩,
    C2_roundtrip comps2 vals2 5 freshElem rfl (by decide) (by decide)
      valsOK_comps2⟩

end ES
